import Mathlib

/-!
Verification of the template-generation and backup/restore pipeline of the
`call-site` repository (`.deno-kit/generate.ts`, `.deno-kit/reset.ts` and their
duplicated variants).

The TypeScript source is shallowly embedded: strings are Lean `String`s
(processed through their `List Char` data), the `TemplateValues` object is an
association list, and the file system visible to the scripts is a record of
(path, contents) pairs plus a set of existing directories.  Interactive stdin
is a list of input lines; fallible file-system operations are driven by an
explicit fault assignment so that the catch-and-continue structure of the
scripts can be stated.
-/

/-! ## Placeholder substitution engine

`generate.ts` line 176: `content.replace(/{([A-Z_]+)}/g, (_match, placeholder)
=> placeholder in values ? values[placeholder] : _match)`.

`runSub` is a single left-to-right pass over the characters, exactly as the
global regex scan proceeds: at a `{` it tries to read a maximal nonempty run
of `[A-Z_]` followed by `}`; on success the whole match is replaced by the
map's value when the key is present (the value is emitted verbatim, never
rescanned) and kept verbatim when absent; when the attempt fails, the `{` is
emitted literally and scanning resumes at the next character (a later `{`
may begin a new attempt). -/

/-- Character class of the capture group `[A-Z_]` in the placeholder regex. -/
def keyChar (c : Char) : Bool := c = '_' || ('A' ≤ c && c ≤ 'Z')

/-- The `TemplateValues` object: placeholder name to replacement string. -/
def TVM : Type := List (String × String)

/-- Property lookup on the object (`placeholder in values` / `values[placeholder]`). -/
def lookupV : List (String × String) → String → Option String
  | [], _ => none
  | (k, v) :: rest, key => if k = key then some v else lookupV rest key

/-- State machine for the global-regex scan.  The state `none` is ordinary
scanning; `some acc` means a `{` has been read and `acc` holds the reversed
run of `[A-Z_]` characters read so far. -/
def runSub (values : List (String × String)) : Option (List Char) → List Char → List Char
  | none, [] => []
  | some acc, [] => '{' :: acc.reverse
  | none, c :: cs =>
    if c = '{' then runSub values (some []) cs else c :: runSub values none cs
  | some acc, c :: cs =>
    if keyChar c then runSub values (some (c :: acc)) cs
    else if c = '}' then
      if acc = [] then '{' :: '}' :: runSub values none cs
      else
        match lookupV values (String.mk acc.reverse) with
        | some v => v.data ++ runSub values none cs
        | none => ('{' :: (acc.reverse ++ ['}'])) ++ runSub values none cs
    else if c = '{' then ('{' :: acc.reverse) ++ runSub values (some []) cs
    else ('{' :: acc.reverse) ++ (c :: runSub values none cs)

/-- `replacePlaceholders` of `generate.ts` (lines 172–181). -/
def replacePlaceholders (content : String) (values : List (String × String)) : String :=
  String.mk (runSub values none content.data)

/-! Occurrence of a character pattern inside a character list, used to state
"the output contains `{K}`".  Defined from scratch as executable functions. -/

/-- `leads pat l` holds when `pat` occurs at the very start of `l`. -/
def leads : List Char → List Char → Bool
  | [], _ => true
  | _ :: _, [] => false
  | a :: as, b :: bs => a = b && leads as bs

/-- `segIn pat l` holds when `pat` occurs contiguously anywhere inside `l`. -/
def segIn (pat : List Char) : List Char → Bool
  | [] => leads pat []
  | c :: cs => leads pat (c :: cs) || segIn pat cs

/-- The string `s` contains the placeholder occurrence `{K}` verbatim. -/
def occursPlaceholder (K : String) (s : String) : Bool :=
  segIn ('{' :: (K.data ++ ['}'])) s.data

/-! Side conditions under which the "no `{K}` left for `K` in the map"
property can hold.  `wfKey` says a key is a well-formed placeholder name
(nonempty, all `[A-Z_]`); `safeVal` says a replacement value is nonempty,
contains no `{`, and does not begin with a `[A-Z_]` character or a `}`
(otherwise leftover text and replacement values can recombine into a fresh
placeholder occurrence). -/

/-- Well-formed placeholder key: nonempty run of `[A-Z_]`. -/
def wfKey (k : String) : Bool := !k.data.isEmpty && k.data.all keyChar

/-- Replacement value that cannot take part in a placeholder occurrence
crossing its boundaries. -/
def safeVal (v : String) : Bool :=
  match v.data with
  | [] => false
  | h :: _ => !keyChar h && h ≠ '}' && v.data.all (fun c => c ≠ '{')

/-- All keys of the map are well-formed placeholder names. -/
def KeysWF (M : List (String × String)) : Prop := ∀ kv ∈ M, wfKey kv.1 = true

/-- All values of the map are safe replacement strings. -/
def ValuesSafe (M : List (String × String)) : Prop := ∀ kv ∈ M, safeVal kv.2 = true

instance (M : List (String × String)) : Decidable (KeysWF M) := by
  unfold KeysWF
  infer_instance

instance (M : List (String × String)) : Decidable (ValuesSafe M) := by
  unfold ValuesSafe
  infer_instance

/-! ## Package-name validation and extraction

`generate.ts` lines 88–106: three anchored regexes over the same pattern
`^@[a-z0-9-]+/[a-z0-9-]+$`, used for `isValidPackageName`, `extractScope`
(capture before the `/`) and `extractProjectName` (capture after the `/`). -/

/-- Character class `[a-z0-9-]` of the package-name regex. -/
def nameChar (c : Char) : Bool := ('a' ≤ c && c ≤ 'z') || ('0' ≤ c && c ≤ '9') || c = '-'

/-- Maximal run of characters satisfying `p` at the front of a list, with the
remainder: the greedy behaviour of `p+` in an anchored regex. -/
def scanRun (p : Char → Bool) : List Char → List Char × List Char
  | [] => ([], [])
  | c :: cs =>
    if p c then ((c :: (scanRun p cs).1), (scanRun p cs).2) else ([], c :: cs)

/-- Anchored match of `^@([a-z0-9-]+)/([a-z0-9-]+)$`, returning the two
capture groups.  All three source functions apply this same pattern. -/
def matchPackageName (s : String) : Option (List Char × List Char) :=
  match s.data with
  | '@' :: rest =>
    match scanRun nameChar rest with
    | (a, '/' :: r2) =>
      if a ≠ [] ∧ r2 ≠ [] ∧ r2.all nameChar then some (a, r2) else none
    | _ => none
  | _ => none

/-- `isValidPackageName` of `generate.ts` (lines 88–90). -/
def isValidPackageName (s : String) : Bool := (matchPackageName s).isSome

/-- `extractScope` of `generate.ts` (lines 95–98): the `@scope` capture, or
the empty string when the name does not match. -/
def extractScope (s : String) : String :=
  match matchPackageName s with
  | some (a, _) => String.mk ('@' :: a)
  | none => ""

/-- `extractProjectName` of `generate.ts` (lines 103–106): the capture after
the `/`, or the original string when the name does not match. -/
def extractProjectName (s : String) : String :=
  match matchPackageName s with
  | some (_, b) => String.mk b
  | none => s

/-! ## Template value collector

`generate.ts` lines 65–83 and 111–167.  Stdin is modelled as a list of
already-decoded input lines; a `Deno.stdin.read` returning `null` (closed
input) corresponds to the list being exhausted. -/

/-- The default offered for the package-name prompt (line 122). -/
def defaultPackageName : String := "@my-org/my-lib"

/-- Whitespace trimming on both ends of the character list; executable model
of `String.prototype.trim` on the decoded input line. -/
def trimChars (l : List Char) : List Char :=
  ((l.dropWhile Char.isWhitespace).reverse.dropWhile Char.isWhitespace).reverse

/-- Trim of an input line. -/
def trimS (s : String) : String := String.mk (trimChars s.data)

/-- `promptWithDefault` (lines 65–83): read one line, trim it, fall back to
the default on empty input or closed stdin; returns the remaining input. -/
def promptWithDefault (defaultValue : String) (inputs : List String) : String × List String :=
  match inputs with
  | [] => (defaultValue, [])
  | i :: rest => (if trimS i = "" then defaultValue else trimS i, rest)

/-- The `do { … } while (!isValidPackageName(packageName))` loop of
`gatherTemplateValues` (lines 118–130).  On closed stdin every iteration
yields the default, which is a valid package name, so the loop exits. -/
def promptPackageName : List String → String × List String
  | [] => (defaultPackageName, [])
  | i :: rest =>
    if isValidPackageName (promptWithDefault defaultPackageName (i :: rest)).1 then
      promptWithDefault defaultPackageName (i :: rest)
    else promptPackageName rest

/-- `gatherTemplateValues` (lines 111–167).  The git-derived defaults and the
current year are parameters (they come from subprocesses and the clock). -/
def gatherTemplateValues (defaultName defaultEmail currentYear : String)
    (inputs : List String) : List (String × String) :=
  let pn := promptPackageName inputs
  let ver := promptWithDefault "0.0.1" pn.2
  let an := promptWithDefault defaultName ver.2
  let ae := promptWithDefault defaultEmail an.2
  let desc := promptWithDefault "A Deno library" ae.2
  [("PACKAGE_NAME", pn.1),
   ("PACKAGE_SCOPE", extractScope pn.1),
   ("PACKAGE_VERSION", ver.1),
   ("PACKAGE_AUTHOR_NAME", an.1),
   ("PACKAGE_AUTHOR_EMAIL", ae.1),
   ("PACKAGE_DESCRIPTION", desc.1),
   ("YEAR", currentYear),
   ("PROJECT_NAME", extractProjectName pn.1)]

/-! ## File-system model

The file system the scripts act on: an association list of (path, contents)
pairs (lookup and overwrite address the first occurrence of a path) and the
list of existing directories.  `Deno.copyFile`, `Deno.writeTextFile` and
`Deno.remove` failures are driven by an explicit fault assignment `Faults`;
`noFaults` is the fault-free run.  A copy into the backup directory while
that directory does not exist fails like the corresponding `NotFound`. -/

/-- Overwrite-or-create for the file association list. -/
def setA : List (String × String) → String → String → List (String × String)
  | [], p, c => [(p, c)]
  | (q, d) :: rest, p, c =>
    if q = p then (p, c) :: rest else (q, d) :: setA rest p c

/-- The visible file system. -/
structure FS where
  files : List (String × String)
  dirs : List String
deriving DecidableEq

/-- Contents at a path (`Deno.readTextFile` / the source of `Deno.copyFile`);
`none` plays the role of a `NotFound` error. -/
def getFile (fs : FS) (p : String) : Option String := lookupV fs.files p

/-- Write contents at a path, overwriting (`Deno.writeTextFile` /
the destination of `Deno.copyFile`). -/
def setFile (fs : FS) (p c : String) : FS := ⟨setA fs.files p c, fs.dirs⟩

/-- Delete a file (`Deno.remove`). -/
def removeFile (fs : FS) (p : String) : FS :=
  ⟨fs.files.filter (fun pc => pc.1 != p), fs.dirs⟩

/-- Directory existence (`Deno.stat` on a directory / target of `Deno.mkdir`). -/
def dirExists (fs : FS) (d : String) : Bool := fs.dirs.contains d

/-- Which file-system operations fail during a run. -/
structure Faults where
  copyFail : String → String → Bool
  writeFail : String → Bool
  removeFail : String → Bool

/-- The fault-free run. -/
def noFaults : Faults := ⟨fun _ _ => false, fun _ => false, fun _ => false⟩

/-- The backup directory used by `generate.ts` (string literal `"@templates"`,
joined with file names by `join`). -/
def tplDir : String := "@templates/"

/-- `basename` from `@std/path` as used here: the part of the path after the
last `/`. -/
def basename (p : String) : String :=
  String.mk ((p.data.reverse.takeWhile (fun c => c ≠ '/')).reverse)

/-- `ensureTemplatesBackupDir` of `generate.ts` (lines 186–194): create the
backup directory if absent, succeed silently when it already exists. -/
def ensureTemplatesBackupDir (fs : FS) : FS :=
  if dirExists fs "@templates" then fs else ⟨fs.files, "@templates" :: fs.dirs⟩

/-- `backupExistingFile` of `generate.ts` (lines 199–220): `Deno.stat` on a
missing path raises `NotFound`, which is caught and reported as `false`; an
existing path is copied to `@templates/<basename>.backup` (overwriting any
prior backup) and reported as `true`; a failing copy is caught, logged and
reported as `false`. -/
def backupExistingFile (f : Faults) (fs : FS) (filePath : String) : FS × Bool :=
  match getFile fs filePath with
  | none => (fs, false)
  | some c =>
    let backupPath := tplDir ++ (basename filePath ++ ".backup")
    if dirExists fs "@templates" = false || f.copyFail filePath backupPath then (fs, false)
    else (setFile fs backupPath c, true)

/-- `processTemplate` of `generate.ts` (lines 225–250): ensure the backup
directory, back up the destination if present, read the template, substitute,
write the result.  Every failure is caught inside the function: a missing
template or a failing write yields `false` and the function still returns. -/
def processTemplate (f : Faults) (values : List (String × String))
    (fs : FS) (templatePath destPath : String) : FS × Bool :=
  let fs1 := ensureTemplatesBackupDir fs
  let fs2 := (backupExistingFile f fs1 destPath).1
  match getFile fs2 templatePath with
  | none => (fs2, false)
  | some content =>
    if f.writeFail destPath then (fs2, false)
    else (setFile fs2 destPath (replacePlaceholders content values), true)

/-- The per-pair loop of `generate` (lines 321–323), with the success/failure
report of each pair. -/
def generateAll (f : Faults) (values : List (String × String)) :
    List (String × String) → FS → FS × List Bool
  | [], fs => (fs, [])
  | (tpl, dst) :: ps, fs =>
    ((generateAll f values ps (processTemplate f values fs tpl dst).1).1,
      (processTemplate f values fs tpl dst).2 ::
        (generateAll f values ps (processTemplate f values fs tpl dst).1).2)

/-! ## Restore (reset) -/

/-- The literal suffix `.backup` (7 characters). -/
def backupSuffix : String := ".backup"

/-- `entry.name.endsWith(".backup")`. -/
def hasBackupSuffix (e : String) : Bool :=
  e.data.drop (e.data.length - 7) = backupSuffix.data

/-- `entry.name.slice(0, -7)`: the original file name of a backup entry. -/
def dropBackupSuffix (e : String) : String :=
  String.mk (e.data.take (e.data.length - 7))

/-- One directory entry of the backup directory: a file whose path is
`@templates/<name>` with `<name>` free of `/`. -/
def entryOfPath (p : String) : Option String :=
  if p.data.take tplDir.data.length = tplDir.data ∧
      p.data.drop tplDir.data.length ≠ [] ∧
      '/' ∉ p.data.drop tplDir.data.length
  then some (String.mk (p.data.drop tplDir.data.length)) else none

/-- `Deno.readDir("@templates")`: names of the files in the backup directory. -/
def dirEntries (fs : FS) : List String := fs.files.filterMap (fun pc => entryOfPath pc.1)

/-- The per-entry loop of `reset` (reset.ts lines 28–44): for each listed name
ending in `.backup`, copy `@templates/<name>` back to `./<name minus suffix>`;
a failing copy is caught and logged.  Returns the final file system, the
restored count, and the per-backup-entry success reports. -/
def restoreEntries (f : Faults) : List String → FS → FS × Nat × List Bool
  | [], fs => (fs, 0, [])
  | e :: es, fs =>
    if hasBackupSuffix e then
      match getFile fs (tplDir ++ e) with
      | none =>
        ((restoreEntries f es fs).1, (restoreEntries f es fs).2.1,
          false :: (restoreEntries f es fs).2.2)
      | some c =>
        if f.copyFail (tplDir ++ e) ("./" ++ dropBackupSuffix e) then
          ((restoreEntries f es fs).1, (restoreEntries f es fs).2.1,
            false :: (restoreEntries f es fs).2.2)
        else
          ((restoreEntries f es (setFile fs ("./" ++ dropBackupSuffix e) c)).1,
            (restoreEntries f es (setFile fs ("./" ++ dropBackupSuffix e) c)).2.1 + 1,
            true :: (restoreEntries f es (setFile fs ("./" ++ dropBackupSuffix e) c)).2.2)
    else restoreEntries f es fs

/-- `reset` of `reset.ts` (lines 8–54, the non-destructive variant): when the
backup directory is missing, report zero restorations and return; otherwise
restore every `.backup` entry of the listing. -/
def reset (f : Faults) (fs : FS) : FS × Nat :=
  if dirExists fs "@templates" then
    ((restoreEntries f (dirEntries fs) fs).1, (restoreEntries f (dirEntries fs) fs).2.1)
  else (fs, 0)

/-- The per-entry loop of the destructive `reset` variant (part_003 lines
92–109): as `restoreEntries`, additionally collecting the backup paths whose
copy succeeded (`backupFiles.push(backupPath)`). -/
def resetDEntries (f : Faults) : List String → FS → FS × Nat × List String
  | [], fs => (fs, 0, [])
  | e :: es, fs =>
    if hasBackupSuffix e then
      match getFile fs (tplDir ++ e) with
      | none => resetDEntries f es fs
      | some c =>
        if f.copyFail (tplDir ++ e) ("./" ++ dropBackupSuffix e) then resetDEntries f es fs
        else
          ((resetDEntries f es (setFile fs ("./" ++ dropBackupSuffix e) c)).1,
            (resetDEntries f es (setFile fs ("./" ++ dropBackupSuffix e) c)).2.1 + 1,
            (tplDir ++ e) :: (resetDEntries f es (setFile fs ("./" ++ dropBackupSuffix e) c)).2.2)
    else resetDEntries f es fs

/-- The removal loop of the destructive `reset` (part_003 lines 120–128):
remove each collected backup file, catching a failing `Deno.remove`. -/
def removeFiles (f : Faults) : List String → FS → FS
  | [], fs => fs
  | bp :: l, fs => removeFiles f l (if f.removeFail bp then fs else removeFile fs bp)

/-- The destructive `reset` variant (part_003 lines 71–135): restore all
backups, then, only when at least one file was restored, remove the backup
files whose restore copy succeeded. -/
def resetDestructive (f : Faults) (fs : FS) : FS × Nat :=
  if dirExists fs "@templates" then
    if (resetDEntries f (dirEntries fs) fs).2.1 = 0 then
      ((resetDEntries f (dirEntries fs) fs).1, 0)
    else
      (removeFiles f (resetDEntries f (dirEntries fs) fs).2.2
        (resetDEntries f (dirEntries fs) fs).1,
        (resetDEntries f (dirEntries fs) fs).2.1)
  else (fs, 0)

/-! ## Lemmas: substitution -/

/-- Running the scanner over a run of `[A-Z_]` characters accumulates them. -/
theorem runSub_keyrun (M : List (String × String)) :
    ∀ (K acc rest : List Char), K.all keyChar = true →
      runSub M (some acc) (K ++ rest) = runSub M (some (K.reverse ++ acc)) rest := by
  intro K
  induction K with
  | nil => intro acc rest _; simp
  | cons k K' ih =>
    intro acc rest hall
    simp only [List.all_cons, Bool.and_eq_true] at hall
    simp only [List.cons_append, runSub, hall.1, if_true, List.append_eq]
    rw [ih (k :: acc) rest hall.2]
    simp

/-- One placeholder at the head of the text: replaced by the value when the
key is present (the value is not rescanned), kept verbatim when absent. -/
theorem runSub_placeholder (M : List (String × String)) (K rest : List Char)
    (hne : K ≠ []) (hall : K.all keyChar = true) :
    runSub M none ('{' :: (K ++ '}' :: rest)) =
      (match lookupV M (String.mk K) with
       | some v => v.data
       | none => '{' :: (K ++ ['}'])) ++ runSub M none rest := by
  have h1 : runSub M none ('{' :: (K ++ '}' :: rest)) = runSub M (some []) (K ++ '}' :: rest) := by
    simp [runSub]
  rw [h1, runSub_keyrun M K [] ('}' :: rest) hall]
  have hrk : K.reverse ++ [] ≠ [] := by simpa using hne
  have hkc : keyChar '}' = false := by decide
  simp only [runSub, hkc, Bool.false_eq_true, if_false, if_true, hrk, List.append_nil]
  have : (K.reverse).reverse = K := List.reverse_reverse K
  rw [if_neg (by simpa using hne)]
  simp only [this]
  cases lookupV M (String.mk K) with
  | none => simp
  | some v => simp

/-- Unfolding: scanning state at a `{`. -/
theorem runSub_none_brace (M : List (String × String)) (cs : List Char) :
    runSub M none ('{' :: cs) = runSub M (some []) cs := by simp [runSub]

/-- Unfolding: ordinary character copied through. -/
theorem runSub_none_cons (M : List (String × String)) (c : Char) (cs : List Char)
    (h : c ≠ '{') : runSub M none (c :: cs) = c :: runSub M none cs := by
  simp [runSub, h]

/-- Unfolding: a `[A-Z_]` character extends the candidate key. -/
theorem runSub_some_key (M : List (String × String)) (acc : List Char) (c : Char)
    (cs : List Char) (h : keyChar c = true) :
    runSub M (some acc) (c :: cs) = runSub M (some (c :: acc)) cs := by
  simp [runSub, h]

/-- Unfolding: `{}` with an empty key is no match and is kept verbatim. -/
theorem runSub_some_close_nil (M : List (String × String)) (cs : List Char) :
    runSub M (some []) ('}' :: cs) = '{' :: '}' :: runSub M none cs := by
  have h : keyChar '}' = false := by decide
  simp [runSub, h]

/-- Unfolding: a matched placeholder whose key is present is replaced. -/
theorem runSub_some_close_found (M : List (String × String)) (acc : List Char)
    (cs : List Char) (v : String) (ha : acc ≠ [])
    (h : lookupV M (String.mk acc.reverse) = some v) :
    runSub M (some acc) ('}' :: cs) = v.data ++ runSub M none cs := by
  have hk : keyChar '}' = false := by decide
  simp [runSub, hk, ha, h]

/-- Unfolding: a matched placeholder whose key is absent is kept verbatim. -/
theorem runSub_some_close_miss (M : List (String × String)) (acc : List Char)
    (cs : List Char) (ha : acc ≠ [])
    (h : lookupV M (String.mk acc.reverse) = none) :
    runSub M (some acc) ('}' :: cs) =
      ('{' :: (acc.reverse ++ ['}'])) ++ runSub M none cs := by
  have hk : keyChar '}' = false := by decide
  simp [runSub, hk, ha, h]

/-- Unfolding: a `{` aborts the running attempt and starts a new one. -/
theorem runSub_some_brace (M : List (String × String)) (acc : List Char)
    (cs : List Char) :
    runSub M (some acc) ('{' :: cs) = ('{' :: acc.reverse) ++ runSub M (some []) cs := by
  have hk : keyChar '{' = false := by decide
  simp [runSub, hk]

/-- Unfolding: any other character aborts the running attempt. -/
theorem runSub_some_other (M : List (String × String)) (acc : List Char) (c : Char)
    (cs : List Char) (h1 : keyChar c = false) (h2 : c ≠ '}') (h3 : c ≠ '{') :
    runSub M (some acc) (c :: cs) = ('{' :: acc.reverse) ++ (c :: runSub M none cs) := by
  simp [runSub, h1, h2, h3]

/-- A successful lookup comes from an entry of the association list. -/
theorem lookupV_mem {M : List (String × String)} {k v : String}
    (h : lookupV M k = some v) : (k, v) ∈ M := by
  induction M with
  | nil => simp [lookupV] at h
  | cons kv rest ih =>
    obtain ⟨k0, v0⟩ := kv
    by_cases he : k0 = k
    · subst he
      simp [lookupV] at h
      simp [h]
    · simp only [lookupV, if_neg he] at h
      exact List.mem_cons_of_mem _ (ih h)

/-- A nonempty pattern never occurs at the start of the empty list. -/
theorem leads_nil_of_ne {pat : List Char} (h : pat ≠ []) : leads pat [] = false := by
  cases pat with
  | nil => exact absurd rfl h
  | cons a as => rfl

/-- Walking a `[A-Z_]` run: if `Kp{… }` starts at a run `A` followed by `t`,
then `Kp` extends `A` and the remainder of the pattern starts at `t`. -/
theorem leads_walk (t : List Char) :
    ∀ (A Kp : List Char), A.all keyChar = true →
      leads (Kp ++ ['}']) (A ++ t) = true →
      ∃ R, Kp = A ++ R ∧ leads (R ++ ['}']) t = true := by
  intro A
  induction A with
  | nil => intro Kp _ h; exact ⟨Kp, rfl, by simpa using h⟩
  | cons a A' ih =>
    intro Kp hall h
    simp only [List.all_cons, Bool.and_eq_true] at hall
    cases Kp with
    | nil =>
      exfalso
      simp only [List.nil_append, List.cons_append, leads, Bool.and_eq_true,
        decide_eq_true_eq] at h
      rw [← h.1] at hall
      exact absurd hall.1 (by decide)
    | cons k Kp' =>
      simp only [List.cons_append, leads, Bool.and_eq_true, decide_eq_true_eq] at h
      obtain ⟨R, hR, hl⟩ := ih Kp' hall.2 h.2
      exact ⟨R, by simp [h.1, hR], hl⟩

/-- A `[A-Z_]` run followed by `}` cannot start at a character that is
neither a `[A-Z_]` character nor a `}`. -/
theorem leads_keyrun_cons_false {R : List Char} (hR : R.all keyChar = true)
    {h0 : Char} (hh : keyChar h0 = false) (hne : h0 ≠ '}') (b : List Char) :
    leads (R ++ ['}']) (h0 :: b) = false := by
  cases R with
  | nil =>
    have : ¬('}' = h0) := fun e => hne e.symm
    simp [leads, this]
  | cons r R' =>
    simp only [List.all_cons, Bool.and_eq_true] at hR
    have : ¬(r = h0) := by
      intro e
      rw [e, hh] at hR
      exact absurd hR.1 (by simp)
    simp [leads, this]

/-- A nonempty `[A-Z_]` run followed by `}` cannot start at a `}`. -/
theorem leads_keyrun_rbrace_false {R : List Char} (hne : R ≠ [])
    (hR : R.all keyChar = true) (b : List Char) :
    leads (R ++ ['}']) ('}' :: b) = false := by
  cases R with
  | nil => exact absurd rfl hne
  | cons r R' =>
    simp only [List.all_cons, Bool.and_eq_true] at hR
    have : ¬(r = '}') := by
      intro e
      rw [e] at hR
      exact absurd hR.1 (by decide)
    simp [leads, this]

/-- Occurrence search for a pattern starting with `{` passes over any block
of characters free of `{`. -/
theorem segIn_brace_append (p2 : List Char) :
    ∀ (a b : List Char), (∀ c ∈ a, c ≠ '{') →
      segIn ('{' :: p2) (a ++ b) = segIn ('{' :: p2) b := by
  intro a
  induction a with
  | nil => intro b _; rfl
  | cons a0 a' ih =>
    intro b hn
    have h0 : ¬('{' = a0) := fun e => hn a0 (by simp) e.symm
    have hl : leads ('{' :: p2) (a0 :: (a' ++ b)) = false := by simp [leads, h0]
    simp only [List.cons_append, List.append_eq, segIn, hl, Bool.false_or]
    exact ih b (fun c hc => hn c (by simp [hc]))

/-- Shape of a safe replacement value. -/
theorem safeVal_spec {v : String} (h : safeVal v = true) :
    ∃ h0 t0, v.data = h0 :: t0 ∧ keyChar h0 = false ∧ h0 ≠ '}' ∧
      ∀ c ∈ v.data, c ≠ '{' := by
  cases hv : v.data with
  | nil => rw [safeVal, hv] at h; exact absurd h (by simp)
  | cons h0 t0 =>
    rw [safeVal, hv] at h
    simp only [Bool.and_eq_true, Bool.not_eq_true', decide_eq_true_eq,
      List.all_eq_true] at h
    refine ⟨h0, t0, rfl, h.1.1, h.1.2, ?_⟩
    intro c hc
    exact h.2 c hc

/-- No `[A-Z_]` run followed by `}` starts at the output of the scanner in a
pending-placeholder state, when all map values are safe. -/
theorem leads_keyrun_runSub_false (M : List (String × String)) (hV : ValuesSafe M) :
    ∀ (cs acc R : List Char), R.all keyChar = true →
      leads (R ++ ['}']) (runSub M (some acc) cs) = false := by
  intro cs
  induction cs with
  | nil =>
    intro acc R hR
    exact leads_keyrun_cons_false hR (by decide) (by decide) acc.reverse
  | cons c cs' ih =>
    intro acc R hR
    by_cases hkc : keyChar c = true
    · rw [runSub_some_key M acc c cs' hkc]
      exact ih (c :: acc) R hR
    · rw [Bool.not_eq_true] at hkc
      by_cases h2 : c = '}'
      · subst h2
        by_cases ha : acc = []
        · subst ha
          rw [runSub_some_close_nil]
          exact leads_keyrun_cons_false hR (by decide) (by decide) _
        · cases hlk : lookupV M (String.mk acc.reverse) with
          | some v =>
            rw [runSub_some_close_found M acc cs' v ha hlk]
            obtain ⟨h0, t0, hv, hh, hne, _⟩ := safeVal_spec (hV _ (lookupV_mem hlk))
            rw [hv, List.cons_append]
            exact leads_keyrun_cons_false hR hh hne _
          | none =>
            rw [runSub_some_close_miss M acc cs' ha hlk]
            exact leads_keyrun_cons_false hR (by decide) (by decide) _
      · by_cases h3 : c = '{'
        · subst h3
          rw [runSub_some_brace]
          exact leads_keyrun_cons_false hR (by decide) (by decide) _
        · rw [runSub_some_other M acc c cs' hkc h2 h3]
          exact leads_keyrun_cons_false hR (by decide) (by decide) _

/-- Matching head character of a pattern steps the occurrence test. -/
theorem leads_cons_same (x : Char) (p y : List Char) :
    leads (x :: p) (x :: y) = leads p y := by simp [leads]

/-- Characters of a `[A-Z_]` run are never `{`. -/
theorem keyrun_no_brace {A : List Char} (hA : A.all keyChar = true) :
    ∀ c ∈ A, c ≠ '{' := by
  intro c hc e
  subst e
  rw [List.all_eq_true] at hA
  exact absurd (hA '{' hc) (by decide)

/-- Refutation scheme: `Kd{…}` does not start at `A ++ t` when every possible
continuation of the key run into `t` is refuted. -/
theorem keyrun_walk_false {A t Kd : List Char} (hA : A.all keyChar = true)
    (hcont : ∀ R, Kd = A ++ R → leads (R ++ ['}']) t = false) :
    leads (Kd ++ ['}']) (A ++ t) = false := by
  by_contra h
  rw [Bool.not_eq_false] at h
  obtain ⟨R, hR, hl⟩ := leads_walk t A Kd hA h
  rw [hcont R hR] at hl
  exact absurd hl (by simp)

/-- Core invariant: with well-formed keys and safe values, no occurrence
`{K}` of a present key `K` appears in the scanner's output, from any state
whose pending run is made of `[A-Z_]` characters. -/
theorem runSub_no_occurrence (M : List (String × String)) (hK : KeysWF M)
    (hV : ValuesSafe M) (K : String) (hlk : lookupV M K ≠ none) :
    ∀ (cs : List Char) (st : Option (List Char)),
      (∀ acc, st = some acc → acc.all keyChar = true) →
      segIn ('{' :: (K.data ++ ['}'])) (runSub M st cs) = false := by
  obtain ⟨v0, hv0⟩ := Option.ne_none_iff_exists'.mp hlk
  have hwf := hK _ (lookupV_mem hv0)
  simp only [wfKey, Bool.and_eq_true, Bool.not_eq_true'] at hwf
  have hKne : K.data ≠ [] := by
    intro e
    rw [e] at hwf
    simp at hwf
  have hKall : K.data.all keyChar = true := hwf.2
  intro cs
  induction cs with
  | nil =>
    intro st hst
    cases st with
    | none =>
      simp only [runSub, segIn]
      exact leads_nil_of_ne (by simp)
    | some acc =>
      have hacc := hst acc rfl
      have haccr : acc.reverse.all keyChar = true := by simpa using hacc
      have haccnb : ∀ x ∈ acc.reverse, x ≠ '{' := keyrun_no_brace haccr
      have hl1 : leads ('{' :: (K.data ++ ['}'])) ('{' :: acc.reverse) = false := by
        rw [leads_cons_same]
        have e : acc.reverse ++ ([] : List Char) = acc.reverse := by simp
        rw [← e]
        exact keyrun_walk_false haccr (fun R _ => leads_nil_of_ne (by simp))
      have hl2 : segIn ('{' :: (K.data ++ ['}'])) acc.reverse = false := by
        have e : acc.reverse ++ ([] : List Char) = acc.reverse := by simp
        rw [← e, segIn_brace_append _ _ _ haccnb]
        simp only [segIn]
        exact leads_nil_of_ne (by simp)
      simp only [runSub, segIn, hl1, hl2, Bool.false_or]
  | cons c cs' ih =>
    intro st hst
    cases st with
    | none =>
      by_cases hc : c = '{'
      · subst hc
        rw [runSub_none_brace]
        exact ih (some []) (fun a ha => by cases ha; rfl)
      · rw [runSub_none_cons M c cs' hc]
        have hl : leads ('{' :: (K.data ++ ['}'])) (c :: runSub M none cs') = false := by
          have : ¬('{' = c) := fun e => hc e.symm
          simp [leads, this]
        simp only [segIn, hl, Bool.false_or]
        exact ih none (fun a ha => by cases ha)
    | some acc =>
      have hacc := hst acc rfl
      have haccr : acc.reverse.all keyChar = true := by simpa using hacc
      have haccnb : ∀ x ∈ acc.reverse, x ≠ '{' := keyrun_no_brace haccr
      have hext : ∀ R, K.data = acc.reverse ++ R → R.all keyChar = true := by
        intro R hR
        have h := hKall
        rw [hR, List.all_append, Bool.and_eq_true] at h
        exact h.2
      by_cases hkc : keyChar c = true
      · rw [runSub_some_key M acc c cs' hkc]
        exact ih (some (c :: acc)) (fun a ha => by
          cases ha
          simp [List.all_cons, hkc, hacc])
      · rw [Bool.not_eq_true] at hkc
        by_cases h2 : c = '}'
        · subst h2
          by_cases ha0 : acc = []
          · subst ha0
            rw [runSub_some_close_nil]
            have hl1 : leads ('{' :: (K.data ++ ['}']))
                ('{' :: '}' :: runSub M none cs') = false := by
              rw [leads_cons_same]
              exact leads_keyrun_rbrace_false hKne hKall _
            have hl2 : leads ('{' :: (K.data ++ ['}']))
                ('}' :: runSub M none cs') = false := by
              have : ¬('{' = '}') := by decide
              simp [leads, this]
            simp only [segIn, hl1, hl2, Bool.false_or]
            exact ih none (fun a ha => by cases ha)
          · cases hlk2 : lookupV M (String.mk acc.reverse) with
            | some v =>
              rw [runSub_some_close_found M acc cs' v ha0 hlk2]
              obtain ⟨h0, t0, hv, hh, hne, hnb⟩ := safeVal_spec (hV _ (lookupV_mem hlk2))
              rw [segIn_brace_append _ v.data _ hnb]
              exact ih none (fun a ha => by cases ha)
            | none =>
              rw [runSub_some_close_miss M acc cs' ha0 hlk2, List.cons_append]
              have hassoc : (acc.reverse ++ ['}']) ++ runSub M none cs' =
                  acc.reverse ++ ('}' :: runSub M none cs') := by simp
              have hl1 : leads ('{' :: (K.data ++ ['}']))
                  ('{' :: ((acc.reverse ++ ['}']) ++ runSub M none cs')) = false := by
                rw [leads_cons_same, hassoc]
                apply keyrun_walk_false haccr
                intro R hR
                cases R with
                | nil =>
                  exfalso
                  rw [List.append_nil] at hR
                  have hKs : String.mk acc.reverse = K := by rw [← hR]
                  rw [hKs] at hlk2
                  exact hlk hlk2
                | cons r R2 =>
                  exact leads_keyrun_rbrace_false (by simp) (hext _ hR) _
              have hseg : segIn ('{' :: (K.data ++ ['}']))
                  ((acc.reverse ++ ['}']) ++ runSub M none cs') =
                  segIn ('{' :: (K.data ++ ['}'])) (runSub M none cs') := by
                apply segIn_brace_append
                intro x hx
                rw [List.mem_append] at hx
                cases hx with
                | inl h => exact haccnb x h
                | inr h =>
                  simp only [List.mem_singleton] at h
                  rw [h]
                  decide
              simp only [segIn, hl1, Bool.false_or, hseg]
              exact ih none (fun a ha => by cases ha)
        · by_cases h3 : c = '{'
          · subst h3
            rw [runSub_some_brace, List.cons_append]
            have hl1 : leads ('{' :: (K.data ++ ['}']))
                ('{' :: (acc.reverse ++ runSub M (some []) cs')) = false := by
              rw [leads_cons_same]
              apply keyrun_walk_false haccr
              intro R hR
              exact leads_keyrun_runSub_false M hV cs' [] R (hext _ hR)
            have hseg := segIn_brace_append (K.data ++ ['}']) acc.reverse
              (runSub M (some []) cs') haccnb
            simp only [segIn, hl1, Bool.false_or, hseg]
            exact ih (some []) (fun a ha => by cases ha; rfl)
          · rw [runSub_some_other M acc c cs' hkc h2 h3, List.cons_append]
            have hl1 : leads ('{' :: (K.data ++ ['}']))
                ('{' :: (acc.reverse ++ (c :: runSub M none cs'))) = false := by
              rw [leads_cons_same]
              apply keyrun_walk_false haccr
              intro R hR
              exact leads_keyrun_cons_false (hext _ hR) hkc h2 _
            have hseg := segIn_brace_append (K.data ++ ['}']) acc.reverse
              (c :: runSub M none cs') haccnb
            have hl2 : leads ('{' :: (K.data ++ ['}'])) (c :: runSub M none cs') = false := by
              have : ¬('{' = c) := fun e => h3 e.symm
              simp [leads, this]
            simp only [segIn, hl1, Bool.false_or, hseg, hl2]
            exact ih none (fun a ha => by cases ha)

/-! ## Lemmas: package names -/

/-- A constructed string projects back to its characters. -/
theorem data_mk (l : List Char) : (String.mk l).data = l := rfl

/-- The two parts of a scan recompose the input. -/
theorem scanRun_join (p : Char → Bool) : ∀ l : List Char,
    (scanRun p l).1 ++ (scanRun p l).2 = l := by
  intro l
  induction l with
  | nil => rfl
  | cons c cs ih =>
    by_cases h : p c = true
    · simp [scanRun, h, ih]
    · simp [scanRun, h]

/-- The scanned run satisfies the predicate. -/
theorem scanRun_all (p : Char → Bool) : ∀ l : List Char,
    (scanRun p l).1.all p = true := by
  intro l
  induction l with
  | nil => rfl
  | cons c cs ih =>
    by_cases h : p c = true
    · simp [scanRun, h, ih]
    · simp [scanRun, h]

/-- The scan of a full run followed by a failing character is deterministic. -/
theorem scanRun_append (p : Char → Bool) : ∀ (a : List Char) (c : Char) (r : List Char),
    a.all p = true → p c = false → scanRun p (a ++ c :: r) = (a, c :: r) := by
  intro a
  induction a with
  | nil => intro c r _ hc; simp [scanRun, hc]
  | cons a0 a2 ih =>
    intro c r hall hc
    simp only [List.all_cons, Bool.and_eq_true] at hall
    simp [scanRun, hall.1, ih c r hall.2 hc]

/-- Soundness of the anchored package-name match: a successful match
decomposes the string. -/
theorem matchPackageName_sound {s : String} {a b : List Char}
    (h : matchPackageName s = some (a, b)) :
    s.data = '@' :: (a ++ '/' :: b) ∧ a ≠ [] ∧ b ≠ [] ∧
      a.all nameChar = true ∧ b.all nameChar = true := by
  unfold matchPackageName at h
  split at h
  next rest heq =>
    split at h
    next a2 r2 heq2 =>
      split at h
      next hcond =>
        rw [Option.some.injEq, Prod.mk.injEq] at h
        obtain ⟨ha, hb⟩ := h
        subst ha
        subst hb
        have hj := scanRun_join nameChar rest
        rw [heq2] at hj
        have hall := scanRun_all nameChar rest
        rw [heq2] at hall
        refine ⟨?_, hcond.1, hcond.2.1, hall, hcond.2.2⟩
        rw [heq, ← hj]
      next => exact absurd h (by simp)
    next => exact absurd h (by simp)
  next => exact absurd h (by simp)

/-- Completeness: a well-formed decomposition matches, with the two capture
groups as expected. -/
theorem matchPackageName_complete (a b : List Char) (ha : a ≠ []) (hb : b ≠ [])
    (haa : a.all nameChar = true) (hba : b.all nameChar = true) :
    matchPackageName (String.mk ('@' :: (a ++ '/' :: b))) = some (a, b) := by
  unfold matchPackageName
  have hscan : scanRun nameChar (a ++ '/' :: b) = (a, '/' :: b) :=
    scanRun_append nameChar a '/' b haa (by decide)
  simp [data_mk, hscan, ha, hb, hba]

/-! ## Lemmas: collector -/

/-- The package-name prompt loop only ever returns a valid package name. -/
theorem promptPackageName_valid : ∀ inputs : List String,
    isValidPackageName (promptPackageName inputs).1 = true := by
  intro inputs
  induction inputs with
  | nil => decide
  | cons i rest ih =>
    by_cases h : isValidPackageName (promptWithDefault defaultPackageName (i :: rest)).1 = true
    · simp [promptPackageName, h]
    · rw [Bool.not_eq_true] at h
      simp [promptPackageName, h, ih]

/-! ## Lemmas: file system -/

/-- Lookup after overwrite at the same path. -/
theorem lookupV_setA_self : ∀ (l : List (String × String)) (p c : String),
    lookupV (setA l p c) p = some c := by
  intro l p c
  induction l with
  | nil => simp [setA, lookupV]
  | cons kv rest ih =>
    obtain ⟨q, d⟩ := kv
    by_cases h : q = p
    · simp [setA, h, lookupV]
    · simp [setA, h, lookupV, ih]

/-- Lookup after overwrite at another path. -/
theorem lookupV_setA_ne : ∀ (l : List (String × String)) (p c q : String), q ≠ p →
    lookupV (setA l p c) q = lookupV l q := by
  intro l p c q hq
  induction l with
  | nil =>
    simp only [setA, lookupV]
    rw [if_neg (fun h => hq h.symm)]
  | cons kv rest ih =>
    obtain ⟨k0, d⟩ := kv
    by_cases h : k0 = p
    · subst h
      simp only [setA, if_pos rfl, lookupV]
      rw [if_neg (fun h2 => hq h2.symm), if_neg (fun h2 => hq h2.symm)]
    · simp only [setA, if_neg h, lookupV]
      by_cases h2 : k0 = q
      · simp [h2]
      · simp [h2, ih]

/-- File contents after a write at the same path. -/
theorem getFile_setFile_self (fs : FS) (p c : String) :
    getFile (setFile fs p c) p = some c := lookupV_setA_self fs.files p c

/-- File contents after a write at another path. -/
theorem getFile_setFile_ne (fs : FS) (p c q : String) (h : q ≠ p) :
    getFile (setFile fs p c) q = getFile fs q := lookupV_setA_ne fs.files p c q h

/-- Writes do not change the directory set. -/
theorem dirs_setFile (fs : FS) (p c : String) : (setFile fs p c).dirs = fs.dirs := rfl

/-- A present association is found. -/
theorem lookupV_ne_none_of_mem : ∀ {l : List (String × String)} {p v : String},
    (p, v) ∈ l → lookupV l p ≠ none := by
  intro l
  induction l with
  | nil => intro p v h; simp at h
  | cons kv rest ih =>
    intro p v h
    obtain ⟨k0, v0⟩ := kv
    by_cases he : k0 = p
    · simp [lookupV, he]
    · rw [List.mem_cons] at h
      cases h with
      | inl h => exact absurd (congrArg Prod.fst h).symm he
      | inr h => simp only [lookupV, if_neg he]; exact ih h

/-- A file of the live project area is never a file of the backup area. -/
theorem dot_ne_tpl (x y : String) : "./" ++ x ≠ tplDir ++ y := by
  intro h
  have hd := congrArg String.data h
  rw [String.data_append, String.data_append] at hd
  simp [tplDir] at hd

/-- Appending to the backup directory prefix is injective. -/
theorem tpl_append_inj {x y : String} (h : tplDir ++ x = tplDir ++ y) : x = y := by
  have hd := congrArg String.data h
  rw [String.data_append, String.data_append] at hd
  have := List.append_cancel_left hd
  exact congrArg String.mk this

/-- Appending to the live-area prefix is injective. -/
theorem dot_append_inj {x y : String} (h : "./" ++ x = "./" ++ y) : x = y := by
  have hd := congrArg String.data h
  rw [String.data_append, String.data_append] at hd
  have := List.append_cancel_left hd
  exact congrArg String.mk this

/-- `takeWhile` over a full run followed by a failing character. -/
theorem takeWhile_append_of_all (q : Char → Bool) :
    ∀ (l : List Char) (d : Char) (r : List Char), l.all q = true → q d = false →
      (l ++ d :: r).takeWhile q = l := by
  intro l
  induction l with
  | nil => intro d r _ hd; simp [List.takeWhile_cons, hd]
  | cons a l2 ih =>
    intro d r hall hd
    simp only [List.all_cons, Bool.and_eq_true] at hall
    simp [List.takeWhile_cons, hall.1, ih d r hall.2 hd]

/-- `basename` of a top-level destination path. -/
theorem basename_dot (name : String) (h : '/' ∉ name.data) :
    basename ("./" ++ name) = name := by
  unfold basename
  rw [String.data_append]
  have hd : ("./".data ++ name.data).reverse = name.data.reverse ++ ['/', '.'] := by
    simp
  rw [hd]
  have hall : name.data.reverse.all (fun c => c ≠ '/') = true := by
    rw [List.all_eq_true]
    intro c hc
    simp only [decide_eq_true_eq]
    intro e
    subst e
    exact h (by simpa using hc)
  have : (name.data.reverse ++ '/' :: ['.']).takeWhile (fun c => (c ≠ '/' : Bool)) =
      name.data.reverse := takeWhile_append_of_all _ name.data.reverse '/' ['.'] hall (by decide)
  rw [this, List.reverse_reverse]

/-- `ensureTemplatesBackupDir` does not change the files. -/
theorem files_ensure (fs : FS) : (ensureTemplatesBackupDir fs).files = fs.files := by
  unfold ensureTemplatesBackupDir
  split <;> rfl

/-- Contents are unchanged by `ensureTemplatesBackupDir`. -/
theorem getFile_ensure (fs : FS) (p : String) :
    getFile (ensureTemplatesBackupDir fs) p = getFile fs p := by
  unfold getFile
  rw [files_ensure]

/-- The backup directory exists after `ensureTemplatesBackupDir`. -/
theorem dirExists_ensure (fs : FS) :
    dirExists (ensureTemplatesBackupDir fs) "@templates" = true := by
  unfold ensureTemplatesBackupDir
  by_cases h : dirExists fs "@templates" = true
  · simp [h]
  · rw [Bool.not_eq_true] at h
    rw [if_neg (by simp [h])]
    simp [dirExists]

/-- Removing one file leaves the others readable. -/
theorem getFile_removeFile_ne (fs : FS) (x q : String) (h : q ≠ x) :
    getFile (removeFile fs x) q = getFile fs q := by
  unfold getFile removeFile
  induction fs.files with
  | nil => rfl
  | cons kv rest ih =>
    obtain ⟨k0, v0⟩ := kv
    by_cases he : k0 = x
    · have hb : (k0 != x) = false := by simp [he]
      simp only [List.filter_cons, hb, Bool.false_eq_true, if_false]
      rw [ih]
      simp only [lookupV]
      rw [if_neg (fun e : k0 = q => h (e ▸ he))]
    · have hb : (k0 != x) = true := by simp [he]
      simp only [List.filter_cons, hb, if_true, lookupV]
      by_cases h2 : k0 = q
      · simp [h2]
      · simp [h2, ih]

/-- The entry name of a backup-directory path. -/
theorem entryOfPath_tpl (n : String) (h1 : n.data ≠ []) (h2 : '/' ∉ n.data) :
    entryOfPath (tplDir ++ n) = some n := by
  unfold entryOfPath
  rw [String.data_append, List.take_left, List.drop_left]
  simp [h1, h2]

/-- Any produced entry name comes from a backup-directory path. -/
theorem entryOfPath_some {p n : String} (h : entryOfPath p = some n) :
    p = tplDir ++ n ∧ n.data ≠ [] ∧ '/' ∉ n.data := by
  unfold entryOfPath at h
  split at h
  next hcond =>
    rw [Option.some.injEq] at h
    subst h
    refine ⟨?_, hcond.2.1, hcond.2.2⟩
    have hdec := (List.take_append_drop tplDir.data.length p.data).symm
    rw [hcond.1] at hdec
    have : p.data = (tplDir ++ String.mk (p.data.drop tplDir.data.length)).data := by
      rw [String.data_append]
      exact hdec
    exact congrArg String.mk this
  next => exact absurd h (by simp)

/-- A backup file present in the file list is listed by `dirEntries`. -/
theorem mem_dirEntries_of_getFile {fs : FS} {n c : String}
    (h : getFile fs (tplDir ++ n) = some c) (h1 : n.data ≠ []) (h2 : '/' ∉ n.data) :
    n ∈ dirEntries fs := by
  unfold dirEntries
  rw [List.mem_filterMap]
  exact ⟨(tplDir ++ n, c), lookupV_mem h, entryOfPath_tpl n h1 h2⟩

/-- Every listed entry corresponds to a present backup-directory file. -/
theorem mem_dirEntries {fs : FS} {n : String} (h : n ∈ dirEntries fs) :
    (∃ c, (tplDir ++ n, c) ∈ fs.files) ∧ n.data ≠ [] ∧ '/' ∉ n.data := by
  unfold dirEntries at h
  rw [List.mem_filterMap] at h
  obtain ⟨pc, hmem, hf⟩ := h
  obtain ⟨hp, hne, hsl⟩ := entryOfPath_some hf
  exact ⟨⟨pc.2, by rw [← hp]; exact hmem⟩, hne, hsl⟩

/-- A name with the `.backup` suffix appended passes the suffix test. -/
theorem hasBackupSuffix_append (name : String) :
    hasBackupSuffix (name ++ ".backup") = true := by
  unfold hasBackupSuffix
  rw [String.data_append]
  have hlen : (name.data ++ ".backup".data).length - 7 = name.data.length := by
    rw [List.length_append]
    simp
  rw [hlen, List.drop_left]
  simp [backupSuffix]

/-- Stripping the appended `.backup` suffix recovers the name. -/
theorem dropBackupSuffix_append (name : String) :
    dropBackupSuffix (name ++ ".backup") = name := by
  unfold dropBackupSuffix
  rw [String.data_append]
  have hlen : (name.data ++ ".backup".data).length - 7 = name.data.length := by
    rw [List.length_append]
    simp
  rw [hlen, List.take_left]

/-- A name passing the suffix test decomposes as stripped name plus suffix. -/
theorem hasBackupSuffix_decomp {e : String} (h : hasBackupSuffix e = true) :
    e = dropBackupSuffix e ++ ".backup" := by
  unfold hasBackupSuffix at h
  rw [decide_eq_true_eq] at h
  have hdec := (List.take_append_drop (e.data.length - 7) e.data).symm
  rw [h] at hdec
  have : e.data = (dropBackupSuffix e ++ ".backup").data := by
    rw [String.data_append]
    unfold dropBackupSuffix
    rw [data_mk]
    calc e.data = e.data.take (e.data.length - 7) ++ ".backup".data := hdec
    _ = _ := by rfl
  exact congrArg String.mk this

/-- Restoring writes only into the live area: backup-directory files keep
their contents. -/
theorem restoreEntries_getFile_tpl (f : Faults) : ∀ (es : List String) (fs : FS) (x : String),
    getFile (restoreEntries f es fs).1 (tplDir ++ x) = getFile fs (tplDir ++ x) := by
  intro es
  induction es with
  | nil => intro fs x; rfl
  | cons e es ih =>
    intro fs x
    by_cases hs : hasBackupSuffix e = true
    · simp only [restoreEntries, hs, if_true]
      cases hbp : getFile fs (tplDir ++ e) with
      | none => exact ih fs x
      | some ct =>
        by_cases hcf : f.copyFail (tplDir ++ e) ("./" ++ dropBackupSuffix e) = true
        · simp only [hcf, if_true]
          exact ih fs x
        · rw [Bool.not_eq_true] at hcf
          simp only [hcf, Bool.false_eq_true, if_false]
          rw [ih]
          exact getFile_setFile_ne fs _ ct (tplDir ++ x) (Ne.symm (dot_ne_tpl _ x))
    · rw [Bool.not_eq_true] at hs
      simp only [restoreEntries, hs, Bool.false_eq_true, if_false]
      exact ih fs x

/-- Restoring with no faults puts the backed-up contents of
`@templates/<name>.backup` at `./<name>` exactly when that entry is listed. -/
theorem restoreEntries_restores (name C1 : String) :
    ∀ (es : List String) (fs : FS),
      getFile fs (tplDir ++ (name ++ ".backup")) = some C1 →
      getFile (restoreEntries noFaults es fs).1 ("./" ++ name) =
        if (name ++ ".backup") ∈ es then some C1 else getFile fs ("./" ++ name) := by
  intro es
  induction es with
  | nil => intro fs _; simp [restoreEntries]
  | cons e es ih =>
    intro fs hfs
    by_cases he : e = name ++ ".backup"
    · subst he
      have hsfx := hasBackupSuffix_append name
      simp only [restoreEntries, hsfx, if_true, dropBackupSuffix_append, hfs]
      have hcf : noFaults.copyFail (tplDir ++ (name ++ ".backup")) ("./" ++ name) = false := rfl
      simp only [hcf, Bool.false_eq_true, if_false]
      rw [ih (setFile fs ("./" ++ name) C1)
        (by rw [getFile_setFile_ne _ _ _ _ (Ne.symm (dot_ne_tpl name (name ++ ".backup")))]
            exact hfs)]
      rw [if_pos (List.mem_cons_self _ _)]
      by_cases hm : (name ++ ".backup") ∈ es
      · rw [if_pos hm]
      · rw [if_neg hm, getFile_setFile_self]
    · have hmemiff : ((name ++ ".backup") ∈ e :: es) ↔ ((name ++ ".backup") ∈ es) := by
        rw [List.mem_cons]
        constructor
        · rintro (h1 | h1)
          · exact absurd h1.symm he
          · exact h1
        · exact Or.inr
      by_cases hs : hasBackupSuffix e = true
      · simp only [restoreEntries, hs, if_true]
        cases hbp : getFile fs (tplDir ++ e) with
        | none =>
          rw [ih fs hfs, if_congr hmemiff rfl rfl]
        | some ct =>
          have hcf : noFaults.copyFail (tplDir ++ e) ("./" ++ dropBackupSuffix e) = false := rfl
          simp only [hcf, Bool.false_eq_true, if_false]
          have htgt : ("./" ++ dropBackupSuffix e) ≠ ("./" ++ name) := by
            intro h2
            exact he (by rw [hasBackupSuffix_decomp hs, dot_append_inj h2])
          rw [ih (setFile fs ("./" ++ dropBackupSuffix e) ct)
            (by rw [getFile_setFile_ne _ _ _ _ (Ne.symm (dot_ne_tpl _ _))]
                exact hfs)]
          rw [getFile_setFile_ne fs _ ct _ (Ne.symm htgt), if_congr hmemiff rfl rfl]
      · rw [Bool.not_eq_true] at hs
        simp only [restoreEntries, hs, Bool.false_eq_true, if_false]
        rw [ih fs hfs, if_congr hmemiff rfl rfl]

/-- The destructive restore loop also keeps backup-directory contents. -/
theorem resetDEntries_getFile_tpl (f : Faults) : ∀ (es : List String) (fs : FS) (x : String),
    getFile (resetDEntries f es fs).1 (tplDir ++ x) = getFile fs (tplDir ++ x) := by
  intro es
  induction es with
  | nil => intro fs x; rfl
  | cons e es ih =>
    intro fs x
    by_cases hs : hasBackupSuffix e = true
    · simp only [resetDEntries, hs, if_true]
      cases hbp : getFile fs (tplDir ++ e) with
      | none => exact ih fs x
      | some ct =>
        by_cases hcf : f.copyFail (tplDir ++ e) ("./" ++ dropBackupSuffix e) = true
        · simp only [hcf, if_true]
          exact ih fs x
        · rw [Bool.not_eq_true] at hcf
          simp only [hcf, Bool.false_eq_true, if_false]
          rw [ih]
          exact getFile_setFile_ne fs _ ct (tplDir ++ x) (Ne.symm (dot_ne_tpl _ x))
    · rw [Bool.not_eq_true] at hs
      simp only [resetDEntries, hs, Bool.false_eq_true, if_false]
      exact ih fs x

/-- Every backup path collected for later removal belongs to a listed entry
whose restore copy did not fail. -/
theorem resetDEntries_collected (f : Faults) : ∀ (es : List String) (fs : FS) (x : String),
    x ∈ (resetDEntries f es fs).2.2 →
    ∃ e, e ∈ es ∧ x = tplDir ++ e ∧
      f.copyFail (tplDir ++ e) ("./" ++ dropBackupSuffix e) = false := by
  intro es
  induction es with
  | nil => intro fs x h; simp [resetDEntries] at h
  | cons e es ih =>
    intro fs x h
    by_cases hs : hasBackupSuffix e = true
    · simp only [resetDEntries, hs, if_true] at h
      cases hbp : getFile fs (tplDir ++ e) with
      | none =>
        rw [hbp] at h
        obtain ⟨e2, he2, hx, hc⟩ := ih fs x h
        exact ⟨e2, List.mem_cons_of_mem _ he2, hx, hc⟩
      | some ct =>
        rw [hbp] at h
        by_cases hcf : f.copyFail (tplDir ++ e) ("./" ++ dropBackupSuffix e) = true
        · simp only [hcf, if_true] at h
          obtain ⟨e2, he2, hx, hc⟩ := ih fs x h
          exact ⟨e2, List.mem_cons_of_mem _ he2, hx, hc⟩
        · rw [Bool.not_eq_true] at hcf
          simp only [hcf, Bool.false_eq_true, if_false] at h
          rw [List.mem_cons] at h
          cases h with
          | inl h => exact ⟨e, List.mem_cons_self _ _, h, hcf⟩
          | inr h =>
            obtain ⟨e2, he2, hx, hc⟩ := ih _ x h
            exact ⟨e2, List.mem_cons_of_mem _ he2, hx, hc⟩
    · rw [Bool.not_eq_true] at hs
      simp only [resetDEntries, hs, Bool.false_eq_true, if_false] at h
      obtain ⟨e2, he2, hx, hc⟩ := ih fs x h
      exact ⟨e2, List.mem_cons_of_mem _ he2, hx, hc⟩

/-- When the destructive restore loop restored nothing, it changed nothing. -/
theorem resetDEntries_zero (f : Faults) : ∀ (es : List String) (fs : FS),
    (resetDEntries f es fs).2.1 = 0 → (resetDEntries f es fs).1 = fs := by
  intro es
  induction es with
  | nil => intro fs _; rfl
  | cons e es ih =>
    intro fs h
    by_cases hs : hasBackupSuffix e = true
    · simp only [resetDEntries, hs, if_true] at h ⊢
      cases hbp : getFile fs (tplDir ++ e) with
      | none =>
        rw [hbp] at h
        exact ih fs h
      | some ct =>
        rw [hbp] at h
        by_cases hcf : f.copyFail (tplDir ++ e) ("./" ++ dropBackupSuffix e) = true
        · simp only [hcf, if_true] at h ⊢
          exact ih fs h
        · rw [Bool.not_eq_true] at hcf
          simp only [hcf, Bool.false_eq_true, if_false] at h
          exact absurd h (by simp)
    · rw [Bool.not_eq_true] at hs
      simp only [resetDEntries, hs, Bool.false_eq_true, if_false] at h ⊢
      exact ih fs h

/-- Removing a set of paths leaves any other path readable. -/
theorem removeFiles_getFile (f : Faults) : ∀ (l : List String) (fs : FS) (x : String),
    x ∉ l → getFile (removeFiles f l fs) x = getFile fs x := by
  intro l
  induction l with
  | nil => intro fs x _; rfl
  | cons bp l2 ih =>
    intro fs x hx
    rw [List.mem_cons] at hx
    push_neg at hx
    simp only [removeFiles]
    rw [ih _ x hx.2]
    by_cases hr : f.removeFail bp = true
    · simp [hr]
    · rw [Bool.not_eq_true] at hr
      simp only [hr, Bool.false_eq_true, if_false]
      exact getFile_removeFile_ne fs bp x hx.1

/-! ## Claims -/

/-- C1: the substitution replaces each matched placeholder occurrence `{K}`
(`K` a nonempty run of `[A-Z_]`) by the map's value when `K` is present and
keeps the occurrence verbatim, braces included, when `K` is absent, in a
single pass in which the replacement value is not rescanned (the scan
continues after the match); in particular the two concrete scenarios of the
specification hold. -/
theorem claim_C1 :
    (∀ (M : List (String × String)) (K rest : List Char),
      K ≠ [] → K.all keyChar = true →
      runSub M none ('{' :: (K ++ '}' :: rest)) =
        (match lookupV M (String.mk K) with
         | some v => v.data
         | none => '{' :: (K ++ ['}'])) ++ runSub M none rest) ∧
    replacePlaceholders "Hello {NAME}, welcome to {PROJECT}!"
      [("NAME", "Ada"), ("PROJECT", "Kit")] = "Hello Ada, welcome to Kit!" ∧
    replacePlaceholders "Hello {NAME}, welcome to {PROJECT}!"
      [("NAME", "Ada")] = "Hello Ada, welcome to {PROJECT}!" :=
  ⟨fun M K rest h1 h2 => runSub_placeholder M K rest h1 h2, by decide, by decide⟩

/-- C1 witness: the step characterization applied to the placeholder `{NAME}`
under the map `NAME ↦ Ada`. -/
theorem claim_C1_witness :
    runSub [("NAME", "Ada")] none ('{' :: (['N', 'A', 'M', 'E'] ++ '}' :: [])) =
      (match lookupV [("NAME", "Ada")] (String.mk ['N', 'A', 'M', 'E']) with
       | some v => v.data
       | none => '{' :: (['N', 'A', 'M', 'E'] ++ ['}'])) ++
        runSub [("NAME", "Ada")] none [] :=
  claim_C1.1 [("NAME", "Ada")] ['N', 'A', 'M', 'E'] [] (by decide) (by decide)

/-- C2 counterexample: with the map `A ↦ \x7bA\x7d`, whose value itself is
placeholder-shaped text, substituting into the template `\x7bA\x7d` leaves the
occurrence `\x7bA\x7d` in the output although `A` is a key of the map, because
replacement values are not rescanned.  So the claim is false as stated. -/
theorem claim_C2_counterexample :
    lookupV [("A", "{A}")] "A" ≠ none ∧
    occursPlaceholder "A" (replacePlaceholders "{A}" [("A", "{A}")]) = true :=
  ⟨by decide, by decide⟩

/-- C2 (amended): for every template `T` and every map whose keys are
well-formed placeholder names and whose values are nonempty, contain no `{`,
and do not begin with a `[A-Z_]` character or a `}` (so that no placeholder
occurrence can be contributed by a replacement value or recombined across a
replacement boundary), the output contains no occurrence of `{K}` for any key
`K` present in the map. -/
theorem claim_C2_amended (T : String) (M : List (String × String))
    (hK : KeysWF M) (hV : ValuesSafe M) (K : String) (hlk : lookupV M K ≠ none) :
    occursPlaceholder K (replacePlaceholders T M) = false := by
  unfold occursPlaceholder replacePlaceholders
  rw [data_mk]
  exact runSub_no_occurrence M hK hV K hlk T.data none (fun acc h => by cases h)

/-- C2 witness: a safe map on a concrete template. -/
theorem claim_C2_witness :
    KeysWF [("NAME", "ada")] ∧ ValuesSafe [("NAME", "ada")] ∧
    occursPlaceholder "NAME"
      (replacePlaceholders "Hello {NAME}!" [("NAME", "ada")]) = false :=
  ⟨by decide, by decide,
    claim_C2_amended "Hello {NAME}!" [("NAME", "ada")] (by decide) (by decide)
      "NAME" (by decide)⟩

/-- C3: backup-then-restore round trip for a live destination `./name`
(`name` slash-free, as every destination of the template mappings): after
backing the destination up, overwriting it with new contents, and running the
restore-all operation, the destination holds its original contents again,
the restore target being reconstructed from the backup filename by stripping
`.backup` and prefixing `./`. -/
theorem claim_C3 (fs fs1 fs2 fs3 : FS) (name C1 C2 : String)
    (_hn1 : name.data ≠ []) (hn2 : '/' ∉ name.data)
    (hcur : getFile fs ("./" ++ name) = some C1)
    (h1 : fs1 = ensureTemplatesBackupDir fs)
    (h2 : fs2 = (backupExistingFile noFaults fs1 ("./" ++ name)).1)
    (h3 : fs3 = setFile fs2 ("./" ++ name) C2) :
    getFile (reset noFaults fs3).1 ("./" ++ name) = some C1 := by
  subst h1
  subst h2
  subst h3
  have hget1 : getFile (ensureTemplatesBackupDir fs) ("./" ++ name) = some C1 := by
    rw [getFile_ensure]
    exact hcur
  have hdir1 := dirExists_ensure fs
  have hbk : (backupExistingFile noFaults (ensureTemplatesBackupDir fs) ("./" ++ name)).1 =
      setFile (ensureTemplatesBackupDir fs)
        (tplDir ++ (basename ("./" ++ name) ++ ".backup")) C1 := by
    unfold backupExistingFile
    rw [hget1]
    simp [hdir1, noFaults]
  rw [hbk, basename_dot name hn2]
  have hfs3bp : getFile (setFile (setFile (ensureTemplatesBackupDir fs)
      (tplDir ++ (name ++ ".backup")) C1) ("./" ++ name) C2)
      (tplDir ++ (name ++ ".backup")) = some C1 := by
    rw [getFile_setFile_ne _ _ _ _ (Ne.symm (dot_ne_tpl name (name ++ ".backup")))]
    exact getFile_setFile_self _ _ _
  have hdir3 : dirExists (setFile (setFile (ensureTemplatesBackupDir fs)
      (tplDir ++ (name ++ ".backup")) C1) ("./" ++ name) C2) "@templates" = true := by
    unfold dirExists at hdir1 ⊢
    rw [dirs_setFile, dirs_setFile]
    exact hdir1
  unfold reset
  rw [if_pos hdir3]
  rw [restoreEntries_restores name C1 _ _ hfs3bp]
  have hmem : (name ++ ".backup") ∈ dirEntries (setFile (setFile
      (ensureTemplatesBackupDir fs) (tplDir ++ (name ++ ".backup")) C1)
      ("./" ++ name) C2) := by
    apply mem_dirEntries_of_getFile hfs3bp
    · rw [String.data_append]
      simp
    · intro hmem2
      rw [String.data_append, List.mem_append] at hmem2
      cases hmem2 with
      | inl h => exact hn2 h
      | inr h => exact absurd h (by decide)
  rw [if_pos hmem]

/-- C3 witness: the round trip on a concrete file system. -/
theorem claim_C3_witness :
    getFile (reset noFaults (setFile ((backupExistingFile noFaults
      (ensureTemplatesBackupDir ⟨[("./" ++ "README.md", "old")], []⟩)
      ("./" ++ "README.md")).1) ("./" ++ "README.md") "new")).1
      ("./" ++ "README.md") = some "old" :=
  claim_C3 ⟨[("./" ++ "README.md", "old")], []⟩ _ _ _ "README.md" "old" "new"
    (by decide) (by decide) (by decide) rfl rfl rfl

/-- C4: for every package name of the shape `@scope/name` over `[a-z0-9-]`
runs, scope extraction returns the `@scope` part and project-name extraction
returns the part after the slash; for every string the validator rejects,
scope extraction returns the empty string and project-name extraction returns
the input unchanged. -/
theorem claim_C4 :
    (∀ (a b : List Char), a ≠ [] → b ≠ [] →
      a.all nameChar = true → b.all nameChar = true →
      extractScope (String.mk ('@' :: (a ++ '/' :: b))) = String.mk ('@' :: a) ∧
      extractProjectName (String.mk ('@' :: (a ++ '/' :: b))) = String.mk b) ∧
    (∀ s : String, isValidPackageName s = false →
      extractScope s = "" ∧ extractProjectName s = s) := by
  constructor
  · intro a b ha hb haa hba
    have hm := matchPackageName_complete a b ha hb haa hba
    constructor
    · unfold extractScope
      rw [hm]
    · unfold extractProjectName
      rw [hm]
  · intro s h
    cases hm : matchPackageName s with
    | some v =>
      unfold isValidPackageName at h
      rw [hm] at h
      simp at h
    | none =>
      constructor
      · unfold extractScope
        rw [hm]
      · unfold extractProjectName
        rw [hm]

/-- C4 witness: the concrete scenario `@my-org/my-lib` and the invalid name
`not-valid`. -/
theorem claim_C4_witness :
    (extractScope (String.mk ('@' :: (['m', 'y', '-', 'o', 'r', 'g'] ++
        '/' :: ['m', 'y', '-', 'l', 'i', 'b']))) =
      String.mk ('@' :: ['m', 'y', '-', 'o', 'r', 'g']) ∧
     extractProjectName (String.mk ('@' :: (['m', 'y', '-', 'o', 'r', 'g'] ++
        '/' :: ['m', 'y', '-', 'l', 'i', 'b']))) =
      String.mk ['m', 'y', '-', 'l', 'i', 'b']) ∧
    (extractScope "not-valid" = "" ∧ extractProjectName "not-valid" = "not-valid") :=
  ⟨claim_C4.1 ['m', 'y', '-', 'o', 'r', 'g'] ['m', 'y', '-', 'l', 'i', 'b']
      (by decide) (by decide) (by decide) (by decide),
   claim_C4.2 "not-valid" (by decide)⟩

/-- C5: the collector's returned map always carries a `PACKAGE_NAME` that the
validator accepts: the prompt loop re-prompts on every invalid input line
(returning nothing and raising no error for that line) and only ever returns
a valid name, the default being valid when stdin is exhausted. -/
theorem claim_C5 :
    (∀ (defaultName defaultEmail currentYear : String) (inputs : List String),
      lookupV (gatherTemplateValues defaultName defaultEmail currentYear inputs)
        "PACKAGE_NAME" = some (promptPackageName inputs).1) ∧
    (∀ inputs : List String, isValidPackageName (promptPackageName inputs).1 = true) ∧
    (∀ (i : String) (rest : List String),
      isValidPackageName (promptWithDefault defaultPackageName (i :: rest)).1 = false →
      promptPackageName (i :: rest) = promptPackageName rest) := by
  refine ⟨?_, promptPackageName_valid, ?_⟩
  · intro dn de cy inputs
    simp [gatherTemplateValues, lookupV]
  · intro i rest h
    simp [promptPackageName, h]

/-- C5 witness: the invalid line `not-valid` is rejected and the loop
re-prompts on the remaining input. -/
theorem claim_C5_witness :
    promptPackageName ["not-valid"] = promptPackageName [] :=
  claim_C5.2.2 "not-valid" [] (by decide)

/-- C6: backing up a nonexistent path returns `false` without error and
without touching the file system; backing up an existing path (with the
backup directory present, fault-free) copies it to
`@templates/<basename>.backup`, overwriting any prior backup, and returns
`true`. -/
theorem claim_C6 :
    (∀ (f : Faults) (fs : FS) (p : String), getFile fs p = none →
      backupExistingFile f fs p = (fs, false)) ∧
    (∀ (fs : FS) (p c : String), getFile fs p = some c →
      dirExists fs "@templates" = true →
      backupExistingFile noFaults fs p =
        (setFile fs (tplDir ++ (basename p ++ ".backup")) c, true) ∧
      getFile (backupExistingFile noFaults fs p).1
        (tplDir ++ (basename p ++ ".backup")) = some c) := by
  constructor
  · intro f fs p h
    unfold backupExistingFile
    rw [h]
  · intro fs p c h hdir
    have hb : backupExistingFile noFaults fs p =
        (setFile fs (tplDir ++ (basename p ++ ".backup")) c, true) := by
      unfold backupExistingFile
      rw [h]
      simp [hdir, noFaults]
    refine ⟨hb, ?_⟩
    rw [hb]
    exact getFile_setFile_self _ _ _

/-- C6 witness: a missing source and an existing source on concrete file
systems. -/
theorem claim_C6_witness :
    backupExistingFile noFaults ⟨[], []⟩ "./README.md" = (⟨[], []⟩, false) ∧
    backupExistingFile noFaults ⟨[("./README.md", "old")], ["@templates"]⟩ "./README.md" =
      (setFile ⟨[("./README.md", "old")], ["@templates"]⟩
        (tplDir ++ (basename "./README.md" ++ ".backup")) "old", true) :=
  ⟨claim_C6.1 noFaults ⟨[], []⟩ "./README.md" (by decide),
   (claim_C6.2 ⟨[("./README.md", "old")], ["@templates"]⟩ "./README.md" "old"
      (by decide) (by decide)).1⟩

/-- C7: when the backup directory does not exist, restore-all reports zero
restored files, raises no error, and leaves the whole file system unchanged. -/
theorem claim_C7 (f : Faults) (fs : FS) (h : dirExists fs "@templates" = false) :
    reset f fs = (fs, 0) := by
  unfold reset
  rw [if_neg (by simp [h])]

/-- C7 witness: restore with no backup directory on a concrete file system. -/
theorem claim_C7_witness :
    reset noFaults ⟨[("./a", "x")], []⟩ = (⟨[("./a", "x")], []⟩, 0) :=
  claim_C7 noFaults ⟨[("./a", "x")], []⟩ (by decide)

/-- C8: per-item failures never stop a batch.  Generation produces one
success/failure report per (template, destination) pair whatever the fault
assignment, each item's processing is followed by the processing of all the
remaining pairs from the resulting state, and the restore loop produces one
report per `.backup` entry whatever the fault assignment. -/
theorem claim_C8 :
    (∀ (f : Faults) (values : List (String × String)) (pairs : List (String × String))
      (fs : FS), (generateAll f values pairs fs).2.length = pairs.length) ∧
    (∀ (f : Faults) (values : List (String × String)) (tpl dst : String)
      (ps : List (String × String)) (fs : FS),
      generateAll f values ((tpl, dst) :: ps) fs =
        ((generateAll f values ps (processTemplate f values fs tpl dst).1).1,
          (processTemplate f values fs tpl dst).2 ::
            (generateAll f values ps (processTemplate f values fs tpl dst).1).2)) ∧
    (∀ (f : Faults) (es : List String) (fs : FS),
      (restoreEntries f es fs).2.2.length = (es.filter hasBackupSuffix).length) := by
  refine ⟨?_, fun f values tpl dst ps fs => rfl, ?_⟩
  · intro f values pairs
    induction pairs with
    | nil => intro fs; rfl
    | cons p ps ih =>
      intro fs
      obtain ⟨tpl, dst⟩ := p
      simp only [generateAll, List.length_cons]
      rw [ih]
  · intro f es
    induction es with
    | nil => intro fs; rfl
    | cons e es ih =>
      intro fs
      by_cases hs : hasBackupSuffix e = true
      · simp only [restoreEntries, hs, if_true, List.filter_cons, List.length_cons]
        cases hbp : getFile fs (tplDir ++ e) with
        | none => simp [ih]
        | some ct =>
          by_cases hcf : f.copyFail (tplDir ++ e) ("./" ++ dropBackupSuffix e) = true
          · simp [hcf, ih]
          · rw [Bool.not_eq_true] at hcf
            simp [hcf, ih]
      · rw [Bool.not_eq_true] at hs
        simp only [restoreEntries, hs, Bool.false_eq_true, if_false, List.filter_cons]
        simp [hs, ih]

/-- C10: in the destructive reset, a backup file is removed only when its
restore copy succeeded in the same run: a listed `.backup` entry whose copy
failed keeps its contents in the backup directory, and when zero files were
restored the whole file system is left unchanged (so no backup is removed). -/
theorem claim_C10 :
    (∀ (f : Faults) (fs : FS) (e : String), dirExists fs "@templates" = true →
      e ∈ dirEntries fs → hasBackupSuffix e = true →
      f.copyFail (tplDir ++ e) ("./" ++ dropBackupSuffix e) = true →
      getFile (resetDestructive f fs).1 (tplDir ++ e) = getFile fs (tplDir ++ e) ∧
      getFile fs (tplDir ++ e) ≠ none) ∧
    (∀ (f : Faults) (fs : FS),
      (resetDestructive f fs).2 = 0 → (resetDestructive f fs).1 = fs) := by
  constructor
  · intro f fs e hdir hmem hsfx hcf
    have hnotcol : (tplDir ++ e) ∉ (resetDEntries f (dirEntries fs) fs).2.2 := by
      intro hin
      obtain ⟨e2, _, hx, hc⟩ := resetDEntries_collected f (dirEntries fs) fs _ hin
      rw [tpl_append_inj hx] at hcf
      exact absurd hcf (by rw [hc]; simp)
    constructor
    · unfold resetDestructive
      rw [if_pos hdir]
      by_cases hz : (resetDEntries f (dirEntries fs) fs).2.1 = 0
      · rw [if_pos hz]
        exact resetDEntries_getFile_tpl f (dirEntries fs) fs e
      · rw [if_neg hz]
        rw [removeFiles_getFile f _ _ _ hnotcol]
        exact resetDEntries_getFile_tpl f (dirEntries fs) fs e
    · obtain ⟨⟨cb, hcb⟩, _, _⟩ := mem_dirEntries hmem
      exact lookupV_ne_none_of_mem hcb
  · intro f fs h
    unfold resetDestructive at h ⊢
    by_cases hdir : dirExists fs "@templates" = true
    · rw [if_pos hdir] at h ⊢
      by_cases hz : (resetDEntries f (dirEntries fs) fs).2.1 = 0
      · rw [if_pos hz]
        exact resetDEntries_zero f (dirEntries fs) fs hz
      · rw [if_neg hz] at h
        exact absurd h hz
    · rw [Bool.not_eq_true] at hdir
      rw [if_neg (by simp [hdir])]

/-- C10 witness: one backup entry whose copy fails stays in place, and a run
that restores nothing changes nothing. -/
theorem claim_C10_witness :
    (getFile (resetDestructive ⟨fun _ _ => true, fun _ => false, fun _ => false⟩
        ⟨[(tplDir ++ "a.backup", "x")], ["@templates"]⟩).1 (tplDir ++ "a.backup") =
      getFile (⟨[(tplDir ++ "a.backup", "x")], ["@templates"]⟩ : FS)
        (tplDir ++ "a.backup")) ∧
    (resetDestructive noFaults (⟨[], []⟩ : FS)).1 = (⟨[], []⟩ : FS) :=
  ⟨(claim_C10.1 ⟨fun _ _ => true, fun _ => false, fun _ => false⟩
      ⟨[(tplDir ++ "a.backup", "x")], ["@templates"]⟩ "a.backup"
      (by decide) (by decide) (by decide) rfl).1,
   claim_C10.2 noFaults ⟨[], []⟩ (by decide)⟩

/-- C9: reconstruction identity: for every string the validator accepts,
concatenating the extracted scope, a slash, and the extracted project name
yields the original package name. -/
theorem claim_C9 (s : String) (h : isValidPackageName s = true) :
    extractScope s ++ "/" ++ extractProjectName s = s := by
  unfold isValidPackageName at h
  rw [Option.isSome_iff_exists] at h
  obtain ⟨⟨a, b⟩, hm⟩ := h
  obtain ⟨hdata, _, _, _, _⟩ := matchPackageName_sound hm
  have hs1 : extractScope s = String.mk ('@' :: a) := by
    unfold extractScope
    rw [hm]
  have hs2 : extractProjectName s = String.mk b := by
    unfold extractProjectName
    rw [hm]
  rw [hs1, hs2]
  have hd : (String.mk ('@' :: a) ++ "/" ++ String.mk b).data = s.data := by
    rw [String.data_append, String.data_append, data_mk, data_mk, hdata]
    simp
  exact congrArg String.mk hd

/-- C9 witness: the identity at the concrete name `@my-org/my-lib`. -/
theorem claim_C9_witness :
    extractScope "@my-org/my-lib" ++ "/" ++ extractProjectName "@my-org/my-lib" =
      "@my-org/my-lib" :=
  claim_C9 "@my-org/my-lib" (by decide)
